import Mathlib

/-!
Shallow embedding of the `Executor` core of the `rooware-io/executor`
repository (`src/core/src/executor.rs`), together with theorems settling the
frozen claims about its natural-language specification.

Modelling conventions:
* account keys and recency tokens (`Hash` values) are `Nat`;
* the local fork (the bank's account store) is a function `Key → Option Account`;
* the external execution engine (`Bank` of the ledger runtime), the remote
  ledger RPC source, the fee calculator, the token-balance collector and the
  program-data address derivation are collaborators outside this repository;
  they are modelled, faithful to their interface as the spec describes it, as
  fields of an `Env` record of total functions;
* methods taking `&self` become state-passing functions returning the unchanged
  state; methods taking `&mut self` return the new state;
* the process-aborting `panic!` on an oversize transaction is the `none` value
  of an `Option` result;
* `Bank::register_tick` may need several internal ticks before the externally
  visible blockhash changes; the engine model carries a granularity
  `ticksPerUpdate` and a pending-tick counter, and the unbounded polling loop
  of `advance_blockhash` is run with sufficient fuel (`ticksPerUpdate + 1`
  ticks always suffice for the registered hash to become current).
-/

namespace RooExec

/-- Account key (`Pubkey`): fixed-length opaque identifier, modelled as `Nat`. -/
abbrev Key := Nat

/-- `solana_sdk::account::Account`: balance, data, owner, executable flag,
rent epoch. -/
structure Account where
  lamports : Nat
  data : List Nat
  owner : Key
  executable : Bool
  rentEpoch : Nat
deriving DecidableEq, Repr

/-- A transaction as the Executor consumes it: its declared account keys
(`tx.message.account_keys`), its serialized (`bincode`) size in bytes, and an
opaque payload standing for instructions, signatures and the targeted
recency token. -/
structure Tx where
  accountKeys : List Key
  serializedSize : Nat
  payload : Nat
deriving DecidableEq, Repr

/-- Transaction status inside a result meta: `Result<(), TransactionError>`. -/
inductive TxStatus where
  | ok : TxStatus
  | err (code : Nat) : TxStatus
deriving DecidableEq, Repr

/-- `TransactionExecutionResult` of the engine: either executed with details
(status, optional inner instructions, optional log messages, executed units)
or not executed with an error. -/
inductive TxExecutionResult where
  | executed (status : TxStatus) (innerInstructions : Option (List (List Nat)))
      (logMessages : Option (List Nat)) (executedUnits : Nat) : TxExecutionResult
  | notExecuted (errCode : Nat) : TxExecutionResult
deriving DecidableEq, Repr

/-- `solana_transaction_status::InnerInstructions`: an instruction-list entry
tagged with the index of the outer instruction it belongs to. -/
structure InnerInstructions where
  index : Nat
  instructions : List Nat
deriving DecidableEq, Repr

/-- `TransactionStatusMeta` as assembled by `execute_transaction_internal`. -/
structure TransactionStatusMeta where
  status : TxStatus
  fee : Nat
  preBalances : List Nat
  postBalances : List Nat
  preTokenBalances : List Nat
  postTokenBalances : List Nat
  innerInstructions : Option (List InnerInstructions)
  logMessages : Option (List Nat)
  computeUnitsConsumed : Nat
deriving DecidableEq, Repr

/-- `EncodedConfirmedTransactionWithStatusMeta`: the per-transaction Execution
Result returned to the caller. -/
structure ExecResult where
  slot : Nat
  transaction : Tx
  meta : TransactionStatusMeta
  blockTime : Nat
deriving DecidableEq, Repr

/-- The remote binding: `(endpoint, commitment level)` of the `RpcClient`. -/
structure RpcBinding where
  endpoint : Nat
  commitment : Nat
deriving DecidableEq, Repr

/-- Engine outcome of committing one transaction:
`load_execute_and_commit_transactions` produces the execution result with the
pre/post balances, and leaves the bank's account store in a new state. -/
structure EngineOut where
  result : TxExecutionResult
  preBalances : List Nat
  postBalances : List Nat
  accounts : Key → Option Account

/-- External collaborators of the Executor, modelled at their interface:
the remote ledger read source (per binding), the fixed program-data address
derivation (`Pubkey::find_program_address` against the upgradeable-loader
authority), the execution engine, the token-balance collector, the fee
calculator, and the wall clock read by `SystemTime::now()`. -/
structure Env where
  ledger : RpcBinding → Key → Option Account
  findProgramAddress : Key → Key
  engineExec : Tx → (Key → Option Account) → EngineOut
  tokenBalances : Tx → (Key → Option Account) → List Nat
  feeFor : Tx → Nat
  now : Nat

/-- The engine (`Bank`) state as the Executor observes it: slot and parent
slot, the current blockhash (latest recency token), the tick-granularity
bookkeeping, a counter backing `Hash::new_unique`, and the account store
(the local fork). -/
structure BankState where
  slot : Nat
  parentSlot : Nat
  lastHash : Nat
  pendingTicks : Nat
  ticksPerUpdate : Nat
  uniqueCounter : Nat
  accounts : Key → Option Account

/-- The `Executor`: the bank (engine + fork) and the remote binding
(`rpc_client`).  The faucet keypair plays no role in any claim and is
omitted. -/
structure Executor where
  bank : BankState
  binding : RpcBinding

/-- `solana_sdk::packet::PACKET_DATA_SIZE`: the fixed network packet-size
ceiling for a serialized transaction. -/
def PACKET_DATA_SIZE : Nat := 1232

/-- `Executor::get_account` (executor.rs lines 86-88): read one account from
the local fork. -/
def get_account (s : Executor) (k : Key) : Option Account :=
  s.bank.accounts k

/-- `Executor::get_accounts` (executor.rs lines 90-95): read a list of keys
from the local fork, one optional account per key. -/
def get_accounts (s : Executor) (keys : List Key) : List (Option Account) :=
  keys.map (fun k => s.bank.accounts k)

/-- `get_account` as a state transition: it takes `&self`, so the state it
returns is the state it was given. -/
def getAccountCall (k : Key) (s : Executor) : Option Account × Executor :=
  (get_account s k, s)

/-- `get_accounts` as a state transition: it takes `&self`, so the state it
returns is the state it was given. -/
def getAccountsCall (keys : List Key) (s : Executor) :
    List (Option Account) × Executor :=
  (get_accounts s keys, s)

/-- One read request: either a single-key or a multi-key account read. -/
inductive ReadCall where
  | one (k : Key) : ReadCall
  | many (keys : List Key) : ReadCall

/-- Run a sequence of read calls, threading the state. -/
def runReads (calls : List ReadCall) (s : Executor) : Executor :=
  calls.foldl
    (fun s c =>
      match c with
      | ReadCall.one k => (getAccountCall k s).2
      | ReadCall.many ks => (getAccountsCall ks s).2)
    s

/-- `Executor::set_rpc_config` (executor.rs lines 97-104): replace the remote
binding; the bank is untouched. -/
def set_rpc_config (endpoint commitment : Nat) (s : Executor) : Executor :=
  { s with binding := { endpoint := endpoint, commitment := commitment } }

/-- Modelled from the spec: `Hash::new_unique` of the ledger SDK (outside this
repository) mints a freshly minted unique token; modelled as a counter that
skips the currently latest token, so the minted token always differs from it. -/
def newUnique (b : BankState) : Nat × BankState :=
  let h := if b.uniqueCounter = b.lastHash then b.uniqueCounter + 1 else b.uniqueCounter
  (h, { b with uniqueCounter := h + 1 })

/-- Modelled from the spec: `Bank::register_tick` of the execution engine
(outside this repository).  One internal tick is issued with a proposed hash;
the externally visible blockhash only changes once `ticksPerUpdate` ticks have
accumulated, capturing that "the engine may require more than one internal
tick per externally visible change". -/
def registerTick (h : Nat) (b : BankState) : BankState :=
  if b.ticksPerUpdate ≤ b.pendingTicks + 1 then
    { b with lastHash := h, pendingTicks := 0 }
  else
    { b with pendingTicks := b.pendingTicks + 1 }

/-- The polling loop of `advance_blockhash` (executor.rs lines 120-122):
while the engine's blockhash still equals the captured previous hash, issue
one more tick with the candidate hash.  Runs on fuel; `ticksPerUpdate + 1`
fuel always reaches the candidate. -/
def tickLoop (fuel : Nat) (oldHash newHash : Nat) (b : BankState) : BankState :=
  match fuel with
  | 0 => b
  | fuel + 1 =>
      if b.lastHash = oldHash then tickLoop fuel oldHash newHash (registerTick newHash b)
      else b

/-- One iteration of the `for _ in 0..parent_distance` loop of
`advance_blockhash` (executor.rs lines 113-123): capture the current hash,
choose the candidate (`Some(new_hash) if new_hash != last_blockhash`,
otherwise a fresh unique hash), then tick until the blockhash moves off the
captured hash. -/
def advanceStep (req : Option Nat) (b : BankState) : BankState :=
  let oldHash := b.lastHash
  let p :=
    match req with
    | some h => if h ≠ b.lastHash then (h, b) else newUnique b
    | none => newUnique b
  tickLoop (p.2.ticksPerUpdate + 1) oldHash p.1 p.2

/-- `Executor::get_latest_blockhash` (executor.rs lines 82-84): the bank's
confirmed last blockhash, i.e. the latest recency token. -/
def get_latest_blockhash (s : Executor) : Nat :=
  s.bank.lastHash

/-- `Executor::advance_blockhash` (executor.rs lines 106-125): compute the
parent distance (1 when the slot is 0), run that many advance steps, and
return the resulting latest blockhash together with the new state. -/
def advance_blockhash (req : Option Nat) (s : Executor) : Nat × Executor :=
  let distance := if s.bank.slot = 0 then 1 else s.bank.slot - s.bank.parentSlot
  let b := (List.range distance).foldl (fun b _ => advanceStep req b) s.bank
  (get_latest_blockhash { s with bank := b }, { s with bank := b })

/-- Prune inner-instruction traces as `execute_transaction_internal` does
(executor.rs lines 196-206): tag each outer index by enumeration, then drop
entries with an empty instruction list. -/
def pruneInner (inner : Option (List (List Nat))) : Option (List InnerInstructions) :=
  inner.map (fun iss =>
    (iss.enum.map (fun p => InnerInstructions.mk p.1 p.2)).filter
      (fun e => !e.instructions.isEmpty))

/-- `Executor::execute_transaction_internal` (executor.rs lines 127-246).
`none` models the process-aborting `panic!` when the serialized transaction
exceeds the packet-size ceiling.  Otherwise: collect pre token balances,
capture the slot, let the engine load/execute/commit the transaction (the
fork moves to the engine's committed account state), collect post token
balances, compute the fee, destructure the execution result (a not-executed
transaction contributes the error status with no traces, no logs and zero
units), and assemble the Execution Result with the wall-clock capture
timestamp. -/
def execute_transaction_internal (env : Env) (tx : Tx) (s : Executor) :
    Option (ExecResult × Executor) :=
  if PACKET_DATA_SIZE < tx.serializedSize then none
  else
    let preTok := env.tokenBalances tx s.bank.accounts
    let slot := s.bank.slot
    let out := env.engineExec tx s.bank.accounts
    let s' : Executor := { s with bank := { s.bank with accounts := out.accounts } }
    let postTok := env.tokenBalances tx s'.bank.accounts
    let fee := env.feeFor tx
    let q :=
      match out.result with
      | TxExecutionResult.executed st i l u => (st, i, l, u)
      | TxExecutionResult.notExecuted e => (TxStatus.err e, none, none, 0)
    some
      ({ slot := slot
         transaction := tx
         meta :=
           { status := q.1
             fee := fee
             preBalances := out.preBalances
             postBalances := out.postBalances
             preTokenBalances := preTok
             postTokenBalances := postTok
             innerInstructions := pruneInner q.2.1
             logMessages := q.2.2.1
             computeUnitsConsumed := q.2.2.2 }
         blockTime := env.now },
       s')

/-- `.sorted().dedup()` of the itertools pipeline: sort ascending, then drop
adjacent duplicates (`destutter` by inequality). -/
def dedupSorted (l : List Key) : List Key :=
  (List.insertionSort (· ≤ ·) l).destutter (· ≠ ·)

/-- The deduplicated key set of a batch (executor.rs lines 252-258): every
account key referenced by any transaction of the batch, sorted and
deduplicated. -/
def batchAccountKeys (batch : List Tx) : List Key :=
  dedupSorted (batch.map (fun tx => tx.accountKeys)).flatten

/-- A remote multi-get (executor.rs lines 261-272 and 289-300): zip the
per-key optional responses with the requested keys and keep the present
ones as `(address, account)` pairs. -/
def fetchAccounts (remote : Key → Option Account) (keys : List Key) :
    List (Key × Account) :=
  ((keys.map remote).zip keys).filterMap
    (fun p => p.1.map (fun a => (p.2, a)))

/-- The dependency-expansion key set (executor.rs lines 275-286): for every
fetched account flagged executable, derive its program-data address; sort and
deduplicate. -/
def programDataKeys (env : Env) (infos : List (Key × Account)) : List Key :=
  dedupSorted
    (infos.filterMap
      (fun p => if p.2.executable then some (env.findProgramAddress p.1) else none))

/-- `Bank::store_account`: write one account into the fork, overwriting. -/
def storeAccount (k : Key) (a : Account) (m : Key → Option Account) :
    Key → Option Account :=
  fun k' => if k' = k then some a else m k'

/-- The merge loop of `execute_transaction_batch` (executor.rs lines 302-314):
store every fetched `(address, account)` pair into the fork in order. -/
def mergeAccounts (infos : List (Key × Account)) (m : Key → Option Account) :
    Key → Option Account :=
  infos.foldl (fun m p => storeAccount p.1 p.2 m) m

/-- The fetch-merge phase of `execute_transaction_batch` (executor.rs lines
252-314): first multi-get on the batch's deduplicated key set, expansion
multi-get on the derived program-data key set, then store both fetched sets
(first fetch first) into the fork. -/
def fetchMerge (env : Env) (batch : List Tx) (s : Executor) : Executor :=
  let keys1 := batchAccountKeys batch
  let infos1 := fetchAccounts (env.ledger s.binding) keys1
  let pdKeys := programDataKeys env infos1
  let infos2 := fetchAccounts (env.ledger s.binding) pdKeys
  { s with bank := { s.bank with accounts := mergeAccounts (infos1 ++ infos2) s.bank.accounts } }

/-- The execution phase of `execute_transaction_batch` (executor.rs lines
316-319): submit each transaction, in input order, to
`execute_transaction_internal`, threading the mutated state; the abort of any
transaction aborts the whole call. -/
def runSeq (env : Env) (batch : List Tx) (s : Executor) :
    Option (List ExecResult × Executor) :=
  match batch with
  | [] => some ([], s)
  | tx :: rest =>
      match execute_transaction_internal env tx s with
      | none => none
      | some (r, s') =>
          match runSeq env rest s' with
          | none => none
          | some (rs, s'') => some (r :: rs, s'')

/-- The state left after sequentially executing a list of transactions
(`none` when some transaction aborts the process). -/
def statesSeq (env : Env) (batch : List Tx) (s : Executor) : Option Executor :=
  match batch with
  | [] => some s
  | tx :: rest =>
      match execute_transaction_internal env tx s with
      | none => none
      | some (_, s') => statesSeq env rest s'

/-- `Executor::execute_transaction_batch` (executor.rs lines 248-320):
fetch-merge, then sequential execution of the batch. -/
def execute_transaction_batch (env : Env) (batch : List Tx) (s : Executor) :
    Option (List ExecResult × Executor) :=
  runSeq env batch (fetchMerge env batch s)

/-- The genesis configuration accumulated by the builder: the initial
accounts, the genesis hash (the engine's initial recency token), the engine's
tick granularity, and the creation time stamped by `new_with_config`. -/
structure GenesisModel where
  accounts : List (Key × Account)
  genesisHash : Nat
  ticksPerUpdate : Nat
  creationTime : Nat

/-- `ExecutorBuilder`: genesis configuration plus the remote binding the
built Executor will use. -/
structure ExecutorBuilder where
  config : GenesisModel
  binding : RpcBinding

/-- Look an account up in the genesis account list (first entry wins). -/
def lookupAccount (l : List (Key × Account)) (k : Key) : Option Account :=
  (l.find? (fun p => p.1 == k)).map (fun p => p.2)

/-- The Executor as freshly constructed by `Bank::new_with_paths` inside
`ExecutorBuilder::build` (executor.rs lines 498-534), before the initial
clock advance: genesis bank at slot 0, parent slot 0, blockhash equal to the
genesis hash, fork holding the genesis accounts. -/
def initialExecutor (bld : ExecutorBuilder) : Executor :=
  { bank :=
      { slot := 0
        parentSlot := 0
        lastHash := bld.config.genesisHash
        pendingTicks := 0
        ticksPerUpdate := bld.config.ticksPerUpdate
        uniqueCounter := bld.config.genesisHash + 1
        accounts := lookupAccount bld.config.accounts }
    binding := bld.binding }

/-- `ExecutorBuilder::build` (executor.rs lines 495-538): construct the
genesis bank, then perform one clock advance (`advance_blockhash(None)`,
line 535) and return the resulting Executor. -/
def ExecutorBuilder.build (bld : ExecutorBuilder) : Executor :=
  (advance_blockhash none (initialExecutor bld)).2

/-- Execute a batch on a freshly built Executor and keep the ordered result
list. -/
def runBatchFresh (env : Env) (bld : ExecutorBuilder) (batch : List Tx) :
    Option (List ExecResult) :=
  (execute_transaction_batch env batch (ExecutorBuilder.build bld)).map (fun p => p.1)

/-- Replace the wall clock of an environment. -/
def setNow (env : Env) (t : Nat) : Env :=
  { env with now := t }

/-- Erase the wall-clock capture timestamp of an Execution Result. -/
def ExecResult.eraseTime (r : ExecResult) : ExecResult :=
  { r with blockTime := 0 }

/-- Modelled from the spec (§4.2 `advance_clock`), one step: choose a
candidate token — the caller-supplied token if it differs from the current
one, otherwise a freshly minted unique token — and repeatedly issue single
ticks to the engine until the engine's own current token equals the
candidate. -/
def specClockStep (req : Option Nat) (b : BankState) : BankState :=
  let current := b.lastHash
  let p :=
    match req with
    | none => newUnique b
    | some h => if h = current then newUnique b else (h, b)
  tickLoop (p.2.ticksPerUpdate + 1) current p.1 p.2

/-- Modelled from the spec (§4.2 `advance_clock`): `distance` is the ticks
since the fork's creation relative to its parent position, treated as 1 in
the bootstrap case; iterate the clock step `distance` times and return the
resulting latest token. -/
def specAdvanceClock (req : Option Nat) (s : Executor) : Nat × Executor :=
  let distance := if s.bank.slot = 0 then 1 else s.bank.slot - s.bank.parentSlot
  let b := Nat.iterate (specClockStep req) distance s.bank
  (b.lastHash, { s with bank := b })

/-! ### Clock lemmas -/

lemma registerTick_ticksPerUpdate (h : Nat) (b : BankState) :
    (registerTick h b).ticksPerUpdate = b.ticksPerUpdate := by
  unfold registerTick
  split <;> rfl

lemma registerTick_slot (h : Nat) (b : BankState) :
    (registerTick h b).slot = b.slot := by
  unfold registerTick
  split <;> rfl

lemma tickLoop_slot (fuel : Nat) (oldHash newHash : Nat) (b : BankState) :
    (tickLoop fuel oldHash newHash b).slot = b.slot := by
  induction fuel generalizing b with
  | zero => rfl
  | succ n ih =>
      unfold tickLoop
      split
      · rw [ih, registerTick_slot]
      · rfl

/-- With fuel at least the remaining granularity gap, the polling loop ends
with the candidate hash installed (provided the candidate differs from the
captured hash). -/
lemma tickLoop_reaches (oldHash newHash : Nat) :
    ∀ fuel (b : BankState), newHash ≠ oldHash → b.lastHash = oldHash →
      1 ≤ fuel → b.ticksPerUpdate ≤ b.pendingTicks + fuel →
      (tickLoop fuel oldHash newHash b).lastHash = newHash := by
  intro fuel
  induction fuel with
  | zero => intro b _ _ hf; omega
  | succ n ih =>
      intro b hne hold _ hfuel
      unfold tickLoop
      rw [if_pos hold]
      by_cases hfire : b.ticksPerUpdate ≤ b.pendingTicks + 1
      · have hreg : registerTick newHash b =
            { b with lastHash := newHash, pendingTicks := 0 } := by
          unfold registerTick
          rw [if_pos hfire]
        rw [hreg]
        match n with
        | 0 => rfl
        | m + 1 =>
            unfold tickLoop
            rw [if_neg (by simpa using hne)]
      · have hreg : registerTick newHash b =
            { b with pendingTicks := b.pendingTicks + 1 } := by
          unfold registerTick
          rw [if_neg hfire]
        rw [hreg]
        exact ih _ hne hold (by omega) (by simp; omega)

/-- A freshly minted unique token never equals the current latest token. -/
lemma newUnique_fst_ne (b : BankState) : (newUnique b).1 ≠ b.lastHash := by
  simp only [newUnique]
  split <;> omega

lemma newUnique_snd_lastHash (b : BankState) :
    (newUnique b).2.lastHash = b.lastHash := rfl

lemma newUnique_snd_ticksPerUpdate (b : BankState) :
    (newUnique b).2.ticksPerUpdate = b.ticksPerUpdate := rfl

lemma newUnique_snd_pendingTicks (b : BankState) :
    (newUnique b).2.pendingTicks = b.pendingTicks := rfl

lemma newUnique_snd_slot (b : BankState) : (newUnique b).2.slot = b.slot := rfl

lemma advanceStep_none_eq (b : BankState) :
    advanceStep none b =
      tickLoop ((newUnique b).2.ticksPerUpdate + 1) b.lastHash (newUnique b).1
        (newUnique b).2 := rfl

lemma advanceStep_some_eq_of_ne (h : Nat) (b : BankState) (hh : h ≠ b.lastHash) :
    advanceStep (some h) b = tickLoop (b.ticksPerUpdate + 1) b.lastHash h b := by
  simp only [advanceStep]
  rw [if_pos hh]

lemma advanceStep_some_eq_of_eq (h : Nat) (b : BankState) (hh : h = b.lastHash) :
    advanceStep (some h) b =
      tickLoop ((newUnique b).2.ticksPerUpdate + 1) b.lastHash (newUnique b).1
        (newUnique b).2 := by
  subst hh
  simp only [advanceStep]
  rw [if_neg (not_not_intro rfl)]

/-- One advance step always moves the blockhash off its previous value. -/
lemma advanceStep_lastHash_ne (req : Option Nat) (b : BankState) :
    (advanceStep req b).lastHash ≠ b.lastHash := by
  have hu1 := newUnique_fst_ne b
  have hloop :
      (tickLoop ((newUnique b).2.ticksPerUpdate + 1) b.lastHash (newUnique b).1
          (newUnique b).2).lastHash = (newUnique b).1 := by
    refine tickLoop_reaches _ _ _ _ hu1 (newUnique_snd_lastHash b) (by omega) ?_
    rw [newUnique_snd_ticksPerUpdate, newUnique_snd_pendingTicks]
    omega
  cases req with
  | none =>
      rw [advanceStep_none_eq, hloop]
      exact hu1
  | some h =>
      by_cases hh : h = b.lastHash
      · rw [advanceStep_some_eq_of_eq h b hh, hloop]
        exact hu1
      · rw [advanceStep_some_eq_of_ne h b hh,
          tickLoop_reaches _ _ _ _ hh rfl (by omega) (by omega)]
        exact hh

/-- For slot-0 states (every state an `Executor` ever reaches: the genesis
bank is created at slot 0 and no Executor operation changes the slot), the
advance loop runs exactly one step. -/
lemma advance_blockhash_ne_of_slot (req : Option Nat) (s : Executor)
    (h : s.bank.slot = 0) :
    (advance_blockhash req s).1 ≠ s.bank.lastHash := by
  unfold advance_blockhash
  rw [h]
  simpa [get_latest_blockhash, List.range_succ] using advanceStep_lastHash_ne req s.bank

lemma advanceStep_slot (req : Option Nat) (b : BankState) :
    (advanceStep req b).slot = b.slot := by
  cases req with
  | none => rw [advanceStep_none_eq, tickLoop_slot, newUnique_snd_slot]
  | some h =>
      by_cases hh : h = b.lastHash
      · rw [advanceStep_some_eq_of_eq h b hh, tickLoop_slot, newUnique_snd_slot]
      · rw [advanceStep_some_eq_of_ne h b hh, tickLoop_slot]

lemma advance_blockhash_slot (req : Option Nat) (s : Executor) :
    (advance_blockhash req s).2.bank.slot = s.bank.slot := by
  unfold advance_blockhash
  simp only [get_latest_blockhash]
  induction (if s.bank.slot = 0 then 1 else s.bank.slot - s.bank.parentSlot) with
  | zero => rfl
  | succ n ih =>
      rw [List.range_succ, List.foldl_append]
      simpa [advanceStep_slot] using ih

/-- Every freshly built Executor sits at slot 0. -/
lemma build_slot (bld : ExecutorBuilder) :
    (ExecutorBuilder.build bld).bank.slot = 0 := by
  unfold ExecutorBuilder.build
  rw [advance_blockhash_slot]
  rfl

/-- The source advance step and the spec-worded clock step agree. -/
lemma advanceStep_eq_specClockStep (req : Option Nat) (b : BankState) :
    advanceStep req b = specClockStep req b := by
  cases req with
  | none => rfl
  | some h =>
      by_cases hh : h = b.lastHash
      · rw [advanceStep_some_eq_of_eq h b hh]
        simp only [specClockStep]
        rw [if_pos hh]
      · rw [advanceStep_some_eq_of_ne h b hh]
        simp only [specClockStep]
        rw [if_neg hh]

lemma foldl_range_iterate (f : BankState → BankState) (b : BankState) :
    ∀ n, (List.range n).foldl (fun b _ => f b) b = Nat.iterate f n b := by
  intro n
  induction n with
  | zero => rfl
  | succ m ih =>
      rw [List.range_succ, List.foldl_append, ih, Function.iterate_succ_apply']
      rfl

/-! ### Concrete sample inputs used by witnesses -/

def accW : Account :=
  { lamports := 5, data := [1, 2], owner := 3, executable := true, rentEpoch := 0 }

def bindW : RpcBinding := { endpoint := 0, commitment := 0 }

def bankW : BankState :=
  { slot := 0, parentSlot := 0, lastHash := 10, pendingTicks := 0,
    ticksPerUpdate := 2, uniqueCounter := 11, accounts := fun _ => none }

def sW : Executor := { bank := bankW, binding := bindW }

def bldW : ExecutorBuilder :=
  { config :=
      { accounts := [(3, accW)], genesisHash := 10, ticksPerUpdate := 2,
        creationTime := 0 }
    binding := bindW }

/-! ### Claim theorems: clock and reads -/

/-- C3: `advance_clock(requested_token)` computes `distance` as the ticks
since the fork's creation relative to its parent position (1 in the
bootstrap case); for each of `distance` steps it chooses as candidate the
caller-supplied token if it differs from the current token and a freshly
minted unique token otherwise, ticks the engine until the engine's current
token equals the candidate, and returns the engine's resulting latest
token.  Stated as: the source `advance_blockhash` equals the function
written from the spec's words, and the returned value is the resulting
state's latest token. -/
theorem advance_clock_refines_spec (req : Option Nat) (s : Executor) :
    advance_blockhash req s = specAdvanceClock req s ∧
    (advance_blockhash req s).1 = get_latest_blockhash (advance_blockhash req s).2 := by
  have hstep : (fun (b : BankState) (_ : Nat) => advanceStep req b)
      = fun (b : BankState) (_ : Nat) => specClockStep req b := by
    funext b i
    exact advanceStep_eq_specClockStep req b
  constructor
  · simp only [advance_blockhash, specAdvanceClock, get_latest_blockhash]
    rw [hstep, foldl_range_iterate]
  · rfl

/-- C3 witness: the refinement evaluated at a concrete state and request. -/
theorem advance_clock_refines_spec_witness :
    advance_blockhash (some 10) sW = specAdvanceClock (some 10) sW ∧
    (advance_blockhash (some 10) sW).1 =
      get_latest_blockhash (advance_blockhash (some 10) sW).2 :=
  advance_clock_refines_spec (some 10) sW

/-- C7: for every state of the Executor (all of which sit at slot 0, see
`build_slot`, `advance_blockhash_slot` and the batch lemmas) and every
optional requested token, `advance_clock` never returns a token equal to
the latest token current immediately before the call. -/
theorem advance_clock_changes_token (s : Executor) (req : Option Nat)
    (h : s.bank.slot = 0) :
    (advance_blockhash req s).1 ≠ get_latest_blockhash s :=
  advance_blockhash_ne_of_slot req s h

/-- C7 witness: a concrete slot-0 state; the advanced token differs from the
previous one. -/
theorem advance_clock_changes_token_witness :
    sW.bank.slot = 0 ∧ (advance_blockhash none sW).1 ≠ get_latest_blockhash sW :=
  ⟨rfl, advance_clock_changes_token sW none rfl⟩

/-- C9: `build()` performs exactly one clock advance on the newly
constructed engine before returning, so the returned Executor's latest
recency token differs from the genesis token, and a further
`advance_clock(None)` returns yet another distinct token. -/
theorem build_initial_advance (bld : ExecutorBuilder) :
    ExecutorBuilder.build bld = (advance_blockhash none (initialExecutor bld)).2 ∧
    (ExecutorBuilder.build bld).bank.lastHash ≠ bld.config.genesisHash ∧
    (advance_blockhash none (ExecutorBuilder.build bld)).1 ≠
      (ExecutorBuilder.build bld).bank.lastHash := by
  refine ⟨rfl, ?_, ?_⟩
  · exact advance_blockhash_ne_of_slot none (initialExecutor bld) rfl
  · exact advance_blockhash_ne_of_slot none (ExecutorBuilder.build bld) (build_slot bld)

/-- C9 witness: the build/advance facts at a concrete builder. -/
theorem build_initial_advance_witness :
    ExecutorBuilder.build bldW = (advance_blockhash none (initialExecutor bldW)).2 ∧
    (ExecutorBuilder.build bldW).bank.lastHash ≠ bldW.config.genesisHash ∧
    (advance_blockhash none (ExecutorBuilder.build bldW)).1 ≠
      (ExecutorBuilder.build bldW).bank.lastHash :=
  build_initial_advance bldW

/-- C6: any sequence of `get_account` / `get_accounts` calls leaves the
whole Executor state — fork, clock and remote binding — unchanged; each call
returns `None` (respectively a `None` element) exactly for keys absent from
the fork, and the values returned are read from the current fork. -/
theorem reads_leave_state_unchanged (s : Executor) (calls : List ReadCall)
    (k : Key) (keys : List Key) :
    runReads calls s = s ∧
    getAccountCall k s = (get_account s k, s) ∧
    getAccountsCall keys s = (get_accounts s keys, s) ∧
    (get_account s k = none ↔ s.bank.accounts k = none) ∧
    get_account s k = s.bank.accounts k ∧
    get_accounts s keys = keys.map (fun x => s.bank.accounts x) := by
  refine ⟨?_, rfl, rfl, Iff.rfl, rfl, rfl⟩
  induction calls with
  | nil => rfl
  | cons c rest ih =>
      cases c with
      | one k => exact ih
      | many ks => exact ih

/-- C10: `get_accounts(keys)` has the length of `keys`, its `i`-th element
is `get_account(keys[i])` on the same state, and the empty list of keys
yields the empty list. -/
theorem get_accounts_pointwise (s : Executor) (keys : List Key) :
    (get_accounts s keys).length = keys.length ∧
    (∀ i : Nat, (get_accounts s keys)[i]? = (keys[i]?).map (fun k => get_account s k)) ∧
    get_accounts s [] = [] := by
  refine ⟨by simp [get_accounts], ?_, rfl⟩
  intro i
  simp [get_accounts, get_account]

/-! ### Sequential batch execution -/

/-- The sequential run aborts exactly when some transaction of the batch is
oversize. -/
lemma runSeq_none_iff (env : Env) :
    ∀ (batch : List Tx) (s : Executor),
      runSeq env batch s = none ↔
        ∃ tx ∈ batch, PACKET_DATA_SIZE < tx.serializedSize := by
  intro batch
  induction batch with
  | nil => intro s; simp [runSeq]
  | cons tx rest ih =>
      intro s
      by_cases hsize : PACKET_DATA_SIZE < tx.serializedSize
      · have hint : execute_transaction_internal env tx s = none := by
          unfold execute_transaction_internal
          rw [if_pos hsize]
        simp only [runSeq, hint]
        constructor
        · intro _
          exact ⟨tx, List.mem_cons_self tx rest, hsize⟩
        · intro _
          trivial
      · have hint : ∃ r s1, execute_transaction_internal env tx s = some (r, s1) := by
          unfold execute_transaction_internal
          rw [if_neg hsize]
          exact ⟨_, _, rfl⟩
        obtain ⟨r, s1, hint⟩ := hint
        simp only [runSeq, hint]
        cases hrest : runSeq env rest s1 with
        | none =>
            simp only [hrest]
            constructor
            · intro _
              obtain ⟨t, ht, hp⟩ := (ih s1).mp hrest
              exact ⟨t, List.mem_cons_of_mem _ ht, hp⟩
            · intro _
              trivial
        | some p =>
            obtain ⟨rs, s2⟩ := p
            simp only [hrest]
            constructor
            · intro hcontra
              cases hcontra
            · rintro ⟨t, ht, hp⟩
              rcases List.mem_cons.mp ht with h1 | h2
              · subst h1
                exact (hsize hp).elim
              · have hnone := (ih s1).mpr ⟨t, h2, hp⟩
                rw [hrest] at hnone
                cases hnone

/-- Every successful sequential run is the ordered threading of
`execute_transaction_internal` through the batch. -/
lemma runSeq_results (env : Env) :
    ∀ (batch : List Tx) (s : Executor) (res : List ExecResult) (s' : Executor),
      runSeq env batch s = some (res, s') →
      res.length = batch.length ∧
      statesSeq env batch s = some s' ∧
      ∀ i : Nat, i < batch.length →
        ∃ tx si r si2,
          batch[i]? = some tx ∧
          statesSeq env (batch.take i) s = some si ∧
          execute_transaction_internal env tx si = some (r, si2) ∧
          res[i]? = some r := by
  intro batch
  induction batch with
  | nil =>
      intro s res s' h
      simp only [runSeq, Option.some.injEq, Prod.mk.injEq] at h
      obtain ⟨hres, hs⟩ := h
      subst hres
      subst hs
      refine ⟨rfl, rfl, ?_⟩
      intro i hi
      exact absurd hi (Nat.not_lt_zero i)
  | cons tx rest ih =>
      intro s res s' h
      cases hint : execute_transaction_internal env tx s with
      | none => simp [runSeq, hint] at h
      | some q =>
          obtain ⟨r, s1⟩ := q
          cases hrest : runSeq env rest s1 with
          | none => simp [runSeq, hint, hrest] at h
          | some p =>
              obtain ⟨rs, s2⟩ := p
              simp only [runSeq, hint, hrest, Option.some.injEq, Prod.mk.injEq] at h
              obtain ⟨hres, hs⟩ := h
              subst hres
              subst hs
              obtain ⟨hlen, hstates, hidx⟩ := ih s1 rs s2 hrest
              refine ⟨by simp [hlen], ?_, ?_⟩
              · simp only [statesSeq, hint]
                exact hstates
              · intro i hi
                cases i with
                | zero =>
                    exact ⟨tx, s, r, s1, by simp, rfl, hint, by simp⟩
                | succ j =>
                    obtain ⟨t, si, rr, si2, h1, h2, h3, h4⟩ :=
                      hidx j (by simpa using hi)
                    refine ⟨t, si, rr, si2, ?_, ?_, h3, ?_⟩
                    · simpa using h1
                    · simp only [List.take_succ_cons, statesSeq, hint]
                      exact h2
                    · simpa using h4

/-- C4: `execute_transaction_batch` hits the fatal precondition abort (the
process-terminating `panic!`, modelled as `none`) exactly when some
transaction of the batch has a serialized size exceeding the fixed network
packet-size ceiling; when every transaction is within the ceiling, the abort
path is unreachable. -/
theorem oversize_transaction_aborts (env : Env) (batch : List Tx) (s : Executor) :
    execute_transaction_batch env batch s = none ↔
      ∃ tx ∈ batch, PACKET_DATA_SIZE < tx.serializedSize :=
  runSeq_none_iff env batch (fetchMerge env batch s)

/-- C1: a successful `execute_transaction_batch` call returns one result per
input transaction, in input order; the `i`-th result is the Execution Result
of submitting the `i`-th transaction, alone, to the engine in the state left
by the previous transactions of the batch (so each transaction's fork
mutations are visible to the next one). -/
theorem execute_batch_sequential (env : Env) (batch : List Tx) (s : Executor)
    (res : List ExecResult)
    (h : (execute_transaction_batch env batch s).map (fun p => p.1) = some res) :
    res.length = batch.length ∧
    ∀ i : Nat, i < batch.length →
      ∃ tx si r si2,
        batch[i]? = some tx ∧
        statesSeq env (batch.take i) (fetchMerge env batch s) = some si ∧
        execute_transaction_internal env tx si = some (r, si2) ∧
        res[i]? = some r := by
  cases hrun : execute_transaction_batch env batch s with
  | none => rw [hrun] at h; cases h
  | some p =>
      obtain ⟨rs, s'⟩ := p
      rw [hrun] at h
      simp only [Option.map_some', Option.some.injEq] at h
      subst h
      obtain ⟨hlen, _, hidx⟩ :=
        runSeq_results env batch (fetchMerge env batch s) rs s' hrun
      exact ⟨hlen, hidx⟩

/-- Concrete environment for witnesses: a one-account remote ledger, a
shifting program-data derivation, an engine that reports success with fixed
balances and traces and keeps the fork unchanged. -/
def envW : Env :=
  { ledger := fun _ k => if k = 3 then some accW else none
    findProgramAddress := fun k => k + 100
    engineExec := fun _ m =>
      { result := TxExecutionResult.executed TxStatus.ok (some [[], [7]]) (some [1]) 9
        preBalances := [0]
        postBalances := [1]
        accounts := m }
    tokenBalances := fun _ _ => []
    feeFor := fun tx => tx.serializedSize
    now := 7 }

def txW : Tx := { accountKeys := [3, 4], serializedSize := 100, payload := 0 }

def resW : List ExecResult :=
  ((execute_transaction_batch envW [txW] sW).map (fun p => p.1)).getD []

/-- C1 witness: a concrete one-transaction batch executes to a concrete
result list satisfying the sequential characterization. -/
theorem execute_batch_sequential_witness :
    ((execute_transaction_batch envW [txW] sW).map (fun p => p.1) = some resW) ∧
    (resW.length = ([txW] : List Tx).length ∧
     ∀ i : Nat, i < ([txW] : List Tx).length →
       ∃ tx si r si2,
         ([txW] : List Tx)[i]? = some tx ∧
         statesSeq envW (([txW] : List Tx).take i) (fetchMerge envW [txW] sW) = some si ∧
         execute_transaction_internal envW tx si = some (r, si2) ∧
         resW[i]? = some r) :=
  ⟨rfl, execute_batch_sequential envW [txW] sW resW rfl⟩

/-! ### Key-set and merge lemmas -/

/-- Dropping adjacent duplicates by `≠` never loses a value: every dropped
element equals the kept one just before it. -/
lemma destutterNe_mem : ∀ (l : List Key) (b x : Key),
    x ∈ List.destutter' (· ≠ ·) b l ↔ x = b ∨ x ∈ l := by
  intro l
  induction l with
  | nil =>
      intro b x
      simp [List.destutter']
  | cons h t ih =>
      intro b x
      rw [List.destutter'_cons]
      by_cases hbh : b ≠ h
      · rw [if_pos hbh]
        simp only [List.mem_cons, ih]
      · rw [if_neg hbh]
        push_neg at hbh
        subst hbh
        simp only [ih, List.mem_cons]
        tauto

lemma mem_destutterNe (l : List Key) (k : Key) :
    k ∈ l.destutter (· ≠ ·) ↔ k ∈ l := by
  cases l with
  | nil => simp [List.destutter]
  | cons h t =>
      show k ∈ List.destutter' (· ≠ ·) h t ↔ _
      rw [destutterNe_mem t h k]
      simp [List.mem_cons]

lemma mem_dedupSorted (l : List Key) (k : Key) : k ∈ dedupSorted l ↔ k ∈ l := by
  unfold dedupSorted
  rw [mem_destutterNe]
  exact List.mem_insertionSort _

/-- A `≤`-sorted chain of pairwise-adjacent-distinct naturals is strictly
increasing along adjacency. -/
lemma chainLt_of_le_ne : ∀ (l : List Key), l.Sorted (· ≤ ·) →
    l.Chain' (· ≠ ·) → l.Chain' (· < ·) := by
  intro l
  induction l with
  | nil =>
      intro _ _
      exact List.chain'_nil
  | cons a t ih =>
      intro hs hne
      cases t with
      | nil => simp
      | cons b t2 =>
          rw [List.chain'_cons] at hne ⊢
          obtain ⟨hab, hs'⟩ := List.pairwise_cons.mp hs
          exact ⟨lt_of_le_of_ne (hab b (by simp)) hne.1, ih hs' hne.2⟩

lemma nodup_dedupSorted (l : List Key) : (dedupSorted l).Nodup := by
  unfold dedupSorted
  have hsorted : (List.insertionSort (· ≤ ·) l).Sorted (· ≤ ·) :=
    List.sorted_insertionSort _ l
  have hsub := List.destutter_sublist (· ≠ ·) (List.insertionSort (· ≤ ·) l)
  have hsorted' :
      ((List.insertionSort (· ≤ ·) l).destutter (· ≠ ·)).Sorted (· ≤ ·) :=
    hsorted.sublist hsub
  have hchain :
      ((List.insertionSort (· ≤ ·) l).destutter (· ≠ ·)).Chain' (· ≠ ·) :=
    List.destutter_is_chain' (· ≠ ·) (List.insertionSort (· ≤ ·) l)
  have hlt := chainLt_of_le_ne _ hsorted' hchain
  have hp := List.chain'_iff_pairwise.mp hlt
  exact hp.imp (fun h => Nat.ne_of_lt h)

lemma mem_batchAccountKeys (batch : List Tx) (k : Key) :
    k ∈ batchAccountKeys batch ↔ ∃ tx ∈ batch, k ∈ tx.accountKeys := by
  unfold batchAccountKeys
  rw [mem_dedupSorted]
  simp only [List.mem_flatten, List.mem_map]
  constructor
  · rintro ⟨l, ⟨tx, htx, hl⟩, hk⟩
    exact ⟨tx, htx, hl ▸ hk⟩
  · rintro ⟨tx, htx, hk⟩
    exact ⟨tx.accountKeys, ⟨tx, htx, rfl⟩, hk⟩

lemma fetchAccounts_eq_filterMap (remote : Key → Option Account) :
    ∀ keys, fetchAccounts remote keys =
      keys.filterMap (fun k => (remote k).map (fun a => (k, a))) := by
  intro keys
  induction keys with
  | nil => rfl
  | cons k t ih =>
      cases hra : remote k with
      | none =>
          simp only [fetchAccounts, List.map_cons, List.zip_cons_cons,
            List.filterMap_cons, hra, Option.map_none']
          exact ih
      | some a =>
          simp only [fetchAccounts, List.map_cons, List.zip_cons_cons,
            List.filterMap_cons, hra, Option.map_some']
          exact congrArg _ ih

lemma mem_fetchAccounts (remote : Key → Option Account) (keys : List Key)
    (k : Key) (a : Account) :
    (k, a) ∈ fetchAccounts remote keys ↔ k ∈ keys ∧ remote k = some a := by
  rw [fetchAccounts_eq_filterMap, List.mem_filterMap]
  constructor
  · rintro ⟨k', hk', hmap⟩
    cases hra : remote k' with
    | none =>
        rw [hra] at hmap
        cases hmap
    | some b =>
        rw [hra] at hmap
        simp only [Option.map_some', Option.some.injEq, Prod.mk.injEq] at hmap
        obtain ⟨h1, h2⟩ := hmap
        subst h1
        subst h2
        exact ⟨hk', hra⟩
  · rintro ⟨hk, hra⟩
    refine ⟨k, hk, ?_⟩
    rw [hra]
    rfl

lemma mem_programDataKeys (env : Env) (infos : List (Key × Account)) (k : Key) :
    k ∈ programDataKeys env infos ↔
      ∃ p ∈ infos, p.2.executable = true ∧ k = env.findProgramAddress p.1 := by
  unfold programDataKeys
  rw [mem_dedupSorted, List.mem_filterMap]
  constructor
  · rintro ⟨p, hp, hif⟩
    by_cases hex : p.2.executable = true
    · rw [if_pos hex] at hif
      exact ⟨p, hp, hex, (Option.some.inj hif).symm⟩
    · rw [if_neg hex] at hif
      cases hif
  · rintro ⟨p, hp, hex, hk⟩
    refine ⟨p, hp, ?_⟩
    rw [if_pos hex, hk]

lemma mergeAccounts_not_mem (k : Key) :
    ∀ (infos : List (Key × Account)) (m : Key → Option Account),
      (∀ p ∈ infos, p.1 ≠ k) → mergeAccounts infos m k = m k := by
  intro infos
  induction infos with
  | nil =>
      intro m _
      rfl
  | cons q t ih =>
      intro m hall
      have hstep : mergeAccounts (q :: t) m = mergeAccounts t (storeAccount q.1 q.2 m) := rfl
      rw [hstep, ih _ (fun p hp => hall p (List.mem_cons_of_mem _ hp))]
      show (if k = q.1 then some q.2 else m k) = m k
      rw [if_neg (Ne.symm (hall q (List.mem_cons_self q t)))]

lemma mergeAccounts_mem (k : Key) (a : Account) :
    ∀ (infos : List (Key × Account)) (m : Key → Option Account),
      (∃ p ∈ infos, p.1 = k) →
      (∀ p ∈ infos, p.1 = k → p.2 = a) →
      mergeAccounts infos m k = some a := by
  intro infos
  induction infos with
  | nil =>
      rintro m ⟨p, hp, _⟩ _
      cases hp
  | cons q t ih =>
      rintro m hex hval
      have hstep : mergeAccounts (q :: t) m = mergeAccounts t (storeAccount q.1 q.2 m) := rfl
      rw [hstep]
      by_cases hmem : ∃ p ∈ t, p.1 = k
      · exact ih _ hmem (fun p hp hpk => hval p (List.mem_cons_of_mem _ hp) hpk)
      · obtain ⟨p, hp, hpk⟩ := hex
        rcases List.mem_cons.mp hp with h1 | h2
        · subst h1
          rw [mergeAccounts_not_mem k t _
            (fun q' hq' hq'k => hmem ⟨q', hq', hq'k⟩)]
          show (if k = p.1 then some p.2 else m k) = some a
          rw [if_pos hpk.symm, hval p (List.mem_cons_self p t) hpk]
        · exact absurd ⟨p, h2, hpk⟩ hmem

/-- C5: the first remote multi-get is issued for exactly the deduplicated
set of all account keys referenced anywhere in the batch; the returned pairs
are exactly the requested keys the remote holds; and the second multi-get is
issued for exactly the deduplicated set of program-data addresses derived
from every returned account whose executable flag is set. -/
theorem fetch_key_sets (env : Env) (batch : List Tx) (s : Executor) :
    (batchAccountKeys batch).Nodup ∧
    (∀ k, k ∈ batchAccountKeys batch ↔ ∃ tx ∈ batch, k ∈ tx.accountKeys) ∧
    (∀ p : Key × Account,
        p ∈ fetchAccounts (env.ledger s.binding) (batchAccountKeys batch) ↔
          p.1 ∈ batchAccountKeys batch ∧ env.ledger s.binding p.1 = some p.2) ∧
    (programDataKeys env
        (fetchAccounts (env.ledger s.binding) (batchAccountKeys batch))).Nodup ∧
    (∀ k, k ∈ programDataKeys env
            (fetchAccounts (env.ledger s.binding) (batchAccountKeys batch)) ↔
          ∃ q ∈ fetchAccounts (env.ledger s.binding) (batchAccountKeys batch),
            q.2.executable = true ∧ k = env.findProgramAddress q.1) := by
  refine ⟨nodup_dedupSorted _, fun k => mem_batchAccountKeys batch k, ?_,
    nodup_dedupSorted _, fun k => mem_programDataKeys env _ k⟩
  intro p
  obtain ⟨k, a⟩ := p
  exact mem_fetchAccounts _ _ k a

/-- C2: during the fetch-merge phase, every key the remote holds (in either
the first or the expansion fetch) is written into the fork with the remote's
account, overwriting whatever was stored locally; every key the remote
reports absent — and every key not fetched at all — keeps its previous fork
entry. -/
theorem fetch_merge_remote_wins (env : Env) (batch : List Tx) (s : Executor) (k : Key) :
    (∀ a, env.ledger s.binding k = some a →
       (k ∈ batchAccountKeys batch ∨
         k ∈ programDataKeys env
               (fetchAccounts (env.ledger s.binding) (batchAccountKeys batch))) →
       (fetchMerge env batch s).bank.accounts k = some a) ∧
    (env.ledger s.binding k = none →
       (fetchMerge env batch s).bank.accounts k = s.bank.accounts k) ∧
    ((k ∉ batchAccountKeys batch ∧
       k ∉ programDataKeys env
             (fetchAccounts (env.ledger s.binding) (batchAccountKeys batch))) →
       (fetchMerge env batch s).bank.accounts k = s.bank.accounts k) := by
  have hshow : (fetchMerge env batch s).bank.accounts =
      mergeAccounts
        (fetchAccounts (env.ledger s.binding) (batchAccountKeys batch) ++
          fetchAccounts (env.ledger s.binding)
            (programDataKeys env
              (fetchAccounts (env.ledger s.binding) (batchAccountKeys batch))))
        s.bank.accounts := rfl
  refine ⟨?_, ?_, ?_⟩
  · intro a ha hmem
    rw [hshow]
    refine mergeAccounts_mem k a _ s.bank.accounts ?_ ?_
    · rcases hmem with h1 | h2
      · exact ⟨(k, a), List.mem_append_left _
          ((mem_fetchAccounts _ _ k a).mpr ⟨h1, ha⟩), rfl⟩
      · exact ⟨(k, a), List.mem_append_right _
          ((mem_fetchAccounts _ _ k a).mpr ⟨h2, ha⟩), rfl⟩
    · rintro ⟨pk, pa⟩ hp hpk
      subst hpk
      rcases List.mem_append.mp hp with h1 | h2
      · have := ((mem_fetchAccounts _ _ pk pa).mp h1).2
        rw [ha] at this
        exact (Option.some.inj this).symm
      · have := ((mem_fetchAccounts _ _ pk pa).mp h2).2
        rw [ha] at this
        exact (Option.some.inj this).symm
  · intro ha
    rw [hshow]
    refine mergeAccounts_not_mem k _ s.bank.accounts ?_
    rintro ⟨pk, pa⟩ hp hpk
    subst hpk
    rcases List.mem_append.mp hp with h1 | h2
    · have := ((mem_fetchAccounts _ _ pk pa).mp h1).2
      rw [ha] at this
      cases this
    · have := ((mem_fetchAccounts _ _ pk pa).mp h2).2
      rw [ha] at this
      cases this
  · rintro ⟨h1, h2⟩
    rw [hshow]
    refine mergeAccounts_not_mem k _ s.bank.accounts ?_
    rintro ⟨pk, pa⟩ hp hpk
    subst hpk
    rcases List.mem_append.mp hp with hm1 | hm2
    · exact h1 ((mem_fetchAccounts _ _ pk pa).mp hm1).1
    · exact h2 ((mem_fetchAccounts _ _ pk pa).mp hm2).1

/-- C2 witness: the remote holds key 3; after fetch-merge the fork holds the
remote's account at key 3 even though the fork had none before. -/
theorem fetch_merge_remote_wins_witness :
    (fetchMerge envW [txW] sW).bank.accounts 3 = some accW :=
  (fetch_merge_remote_wins envW [txW] sW 3).1 accW rfl (Or.inl (by decide))

/-! ### Slot preservation across operations

Together with `build_slot` and `advance_blockhash_slot`, these lemmas show
that every state an Executor reaches through its operations sits at slot 0:
the genesis bank is created at slot 0 and nothing changes the slot. -/

lemma set_rpc_config_bank (e c : Nat) (s : Executor) :
    (set_rpc_config e c s).bank = s.bank := rfl

lemma fetchMerge_slot (env : Env) (batch : List Tx) (s : Executor) :
    (fetchMerge env batch s).bank.slot = s.bank.slot := rfl

lemma internal_slot (env : Env) (tx : Tx) (s : Executor) (r : ExecResult)
    (s' : Executor) (h : execute_transaction_internal env tx s = some (r, s')) :
    s'.bank.slot = s.bank.slot := by
  unfold execute_transaction_internal at h
  by_cases hsize : PACKET_DATA_SIZE < tx.serializedSize
  · rw [if_pos hsize] at h
    cases h
  · rw [if_neg hsize] at h
    simp only [Option.some.injEq, Prod.mk.injEq] at h
    obtain ⟨_, hs⟩ := h
    rw [← hs]

lemma statesSeq_slot (env : Env) :
    ∀ (batch : List Tx) (s s' : Executor),
      statesSeq env batch s = some s' → s'.bank.slot = s.bank.slot := by
  intro batch
  induction batch with
  | nil =>
      intro s s' h
      cases Option.some.inj h
      rfl
  | cons tx rest ih =>
      intro s s' h
      cases hint : execute_transaction_internal env tx s with
      | none => simp [statesSeq, hint] at h
      | some q =>
          obtain ⟨r, s1⟩ := q
          simp only [statesSeq, hint] at h
          rw [ih s1 s' h, internal_slot env tx s r s1 hint]

lemma batch_slot (env : Env) (batch : List Tx) (s : Executor)
    (res : List ExecResult) (s' : Executor)
    (h : execute_transaction_batch env batch s = some (res, s')) :
    s'.bank.slot = s.bank.slot := by
  obtain ⟨_, hstates, _⟩ :=
    runSeq_results env batch (fetchMerge env batch s) res s' h
  exact statesSeq_slot env batch (fetchMerge env batch s) s' hstates

/-! ### Determinism up to the wall clock -/

def withTime (t : Nat) (r : ExecResult) : ExecResult := { r with blockTime := t }

lemma eraseTime_withTime (t : Nat) (r : ExecResult) :
    ExecResult.eraseTime (withTime t r) = ExecResult.eraseTime r := rfl

/-- Changing the wall clock changes only the capture timestamp of each
result, nothing else and not the state. -/
lemma internal_setNow (env : Env) (t : Nat) (tx : Tx) (s : Executor) :
    execute_transaction_internal (setNow env t) tx s =
      (execute_transaction_internal env tx s).map (fun p => (withTime t p.1, p.2)) := by
  unfold execute_transaction_internal setNow withTime
  by_cases hsize : PACKET_DATA_SIZE < tx.serializedSize
  · rw [if_pos hsize, if_pos hsize]
    rfl
  · rw [if_neg hsize, if_neg hsize]
    rfl

lemma runSeq_setNow (env : Env) (t : Nat) :
    ∀ (batch : List Tx) (s : Executor),
      runSeq (setNow env t) batch s =
        (runSeq env batch s).map (fun p => (p.1.map (withTime t), p.2)) := by
  intro batch
  induction batch with
  | nil =>
      intro s
      rfl
  | cons tx rest ih =>
      intro s
      have hstep : runSeq (setNow env t) (tx :: rest) s =
          match execute_transaction_internal (setNow env t) tx s with
          | none => none
          | some (r, s') =>
              match runSeq (setNow env t) rest s' with
              | none => none
              | some (rs, s'') => some (r :: rs, s'') := rfl
      rw [hstep, internal_setNow]
      cases hint : execute_transaction_internal env tx s with
      | none =>
          simp only [runSeq, hint]
          rfl
      | some q =>
          obtain ⟨r, s1⟩ := q
          simp only [Option.map_some']
          show (match runSeq (setNow env t) rest s1 with
            | none => none
            | some (rs, s'') => some (withTime t r :: rs, s'')) = _
          rw [ih s1]
          simp only [runSeq, hint]
          cases hrest : runSeq env rest s1 with
          | none => rfl
          | some p => rfl

lemma fetchMerge_setNow (env : Env) (t : Nat) (batch : List Tx) (s : Executor) :
    fetchMerge (setNow env t) batch s = fetchMerge env batch s := rfl

/-- C8 (amended): on identical genesis, identical batch and the same remote
and engine, two fresh runs agree on every field of every result except the
wall-clock capture timestamp, whatever the two wall-clock readings are. -/
theorem batch_deterministic_modulo_time (env : Env) (bld : ExecutorBuilder)
    (batch : List Tx) (t1 t2 : Nat) :
    (runBatchFresh (setNow env t1) bld batch).map (fun l => l.map ExecResult.eraseTime) =
      (runBatchFresh (setNow env t2) bld batch).map (fun l => l.map ExecResult.eraseTime) := by
  have key : ∀ t,
      (runBatchFresh (setNow env t) bld batch).map (fun l => l.map ExecResult.eraseTime) =
        (runBatchFresh env bld batch).map (fun l => l.map ExecResult.eraseTime) := by
    intro t
    unfold runBatchFresh execute_transaction_batch
    rw [fetchMerge_setNow, runSeq_setNow]
    cases runSeq env batch (fetchMerge env batch (ExecutorBuilder.build bld)) with
    | none => rfl
    | some p =>
        simp only [Option.map_some']
        congr 1
        rw [List.map_map]
        exact List.map_inj_left.mpr (fun r _ => eraseTime_withTime t r)
  rw [key t1, key t2]

/-- C8 counterexample: identical genesis/builder, identical one-transaction
batch, identical remote state (the two environments differ only in the wall
clock), yet the two freshly built Executors return different Execution
Results — the capture timestamp field differs. -/
theorem batch_determinism_counterexample :
    (setNow envW 0).ledger = (setNow envW 1).ledger ∧
    runBatchFresh (setNow envW 0) bldW [txW] ≠ runBatchFresh (setNow envW 1) bldW [txW] :=
  ⟨rfl, by decide⟩

end RooExec
